import Mathlib

/-!
Verification of the two operational scripts of this repository:

* `scripts/run-manticore.py` — the Analysis Runner: parses `remappings.txt`,
  builds the `manticore` command line, runs it with a timeout and classifies
  the outcome.
* `scripts/patch-wasm-types.py` — the Dependency Patcher: rewrites the
  deprecated reference `collections.Callable` to `collections.abc.Callable`
  in an installed `wasm/types.py`.

Text is modelled as `List Char`.  Python's `str.replace`, `str.startswith`,
`str.strip`, `str.split('\n')`, `'\n'.join` and the `in` substring test are
embedded as executable functions below; each definition notes the Python
operation it translates.
-/

namespace Script

/-- Python `s.startswith(pat)` / the character-wise prefix test used by
`str.replace` when matching an occurrence. -/
def isPfx : List Char → List Char → Bool
  | [], _ => true
  | _ :: _, [] => false
  | a :: as, b :: bs => if a = b then isPfx as bs else false

/-- Python `pat in s` (substring test): some suffix of `s` starts with `pat`. -/
def hasSub (pat : List Char) : List Char → Bool
  | [] => isPfx pat []
  | c :: cs => isPfx pat (c :: cs) || hasSub pat cs

/-- Fuel-indexed worker for `str.replace`.  Scans left to right; on a match
it emits `rep` and skips past the matched occurrence, otherwise it keeps the
head character.  Faithful to Python for nonempty `pat` whenever
`s.length ≤ fuel` (the scripts only ever replace nonempty literals). -/
def replaceF (pat rep : List Char) : Nat → List Char → List Char
  | 0, s => s
  | _ + 1, [] => []
  | fuel + 1, c :: cs =>
    if isPfx pat (c :: cs) ∧ pat ≠ [] then
      rep ++ replaceF pat rep fuel (List.drop (pat.length - 1) cs)
    else
      c :: replaceF pat rep fuel cs

/-- Python `s.replace(pat, rep)` for nonempty `pat`: replace every
non-overlapping occurrence, scanning left to right. -/
def replaceL (pat rep s : List Char) : List Char :=
  replaceF pat rep s.length s

/-- Fuel-indexed worker counting the non-overlapping occurrences of `pat`
that `str.replace` would substitute, scanning left to right. -/
def countF (pat : List Char) : Nat → List Char → Nat
  | 0, _ => 0
  | _ + 1, [] => 0
  | fuel + 1, c :: cs =>
    if isPfx pat (c :: cs) ∧ pat ≠ [] then
      1 + countF pat fuel (List.drop (pat.length - 1) cs)
    else
      countF pat fuel cs

/-- Number of non-overlapping occurrences of `pat` in `s` (as replaced by
Python `str.replace`), for nonempty `pat`. -/
def countOcc (pat s : List Char) : Nat :=
  countF pat s.length s

/-- The characters stripped by Python `str.strip()` with no argument
(the ASCII whitespace characters; the files treated by the scripts are
ASCII text). -/
def isPySpace (c : Char) : Bool :=
  c = ' ' || c = '\t' || c = '\n' || c = '\r' || c = '\x0b' || c = '\x0c'

/-- Python `s.strip()`: drop whitespace from both ends. -/
def pyStrip (l : List Char) : List Char :=
  ((l.dropWhile isPySpace).reverse.dropWhile isPySpace).reverse

/-- Python `s.split('\n')`. -/
def splitNl : List Char → List (List Char)
  | [] => [[]]
  | c :: cs =>
    if c = '\n' then [] :: splitNl cs
    else
      match splitNl cs with
      | [] => [[c]]
      | l :: ls => (c :: l) :: ls

/-- Python `'\n'.join(lines)`. -/
def joinNl : List (List Char) → List Char
  | [] => []
  | [l] => l
  | l :: ls => l ++ '\n' :: joinNl ls

/-- Python `lines.insert(pos, x)`: insert before index `pos`, appending at
the end when `pos` exceeds the length. -/
def insertAt : Nat → List Char → List (List Char) → List (List Char)
  | 0, x, ls => x :: ls
  | _ + 1, x, [] => [x]
  | n + 1, x, l :: ls => l :: insertAt n x ls

end Script

namespace Patch

open Script

/-- The deprecated reference `collections.Callable`. -/
def depL : List Char := "collections.Callable".toList

/-- The updated reference `collections.abc.Callable`. -/
def updL : List Char := "collections.abc.Callable".toList

/-- The substring `collections.abc` of the already-patched check. -/
def abcL : List Char := "collections.abc".toList

/-- The substring `from collections.abc import` of the already-patched check. -/
def fromAbcL : List Char := "from collections.abc import".toList

/-- The substring `import collections.abc`. -/
def impAbcL : List Char := "import collections.abc".toList

/-- The substring `import collections`. -/
def impcL : List Char := "import collections".toList

/-- The replaced line `import collections\n`. -/
def impcNL : List Char := "import collections\n".toList

/-- The replacement block `import collections\nimport collections.abc\n`. -/
def blkL : List Char := "import collections\nimport collections.abc\n".toList

/-- An apostrophe character, written via its code point. -/
def squote : Char := Char.ofNat 39

/-- The docstring opener of three single quotes. -/
def tripleSq : List Char := [squote, squote, squote]

/-- The docstring opener of three double quotes. -/
def tripleDq : List Char := ['\"', '\"', '\"']

/-- The hash character opening a comment line. -/
def hashL : List Char := ['#']

/-- The already-patched check of `patch_file`:
`'collections.abc' in content and 'from collections.abc import' in content`. -/
def alreadyPatched (c : List Char) : Bool :=
  hasSub abcL c && hasSub fromAbcL c

/-- The per-line test of the fallback insertion loop: the stripped line
starts with none of `#`, `\"\"\"`, `'''` (the loop breaks at the first such
line). -/
def okLine (l : List Char) : Bool :=
  !(isPfx hashL (pyStrip l)) && !(isPfx tripleDq (pyStrip l))
    && !(isPfx tripleSq (pyStrip l))

/-- The loop computing `insert_pos`: index of the first line passing
`okLine`, defaulting to `0` when no line does (the Python variable keeps
its initialisation). -/
def findInsertPos : List (List Char) → Option Nat
  | [] => none
  | l :: ls =>
    if okLine l then some 0
    else (findInsertPos ls).map (· + 1)

/-- The fallback import insertion of `patch_file`: split on newlines, insert
the line `import collections.abc` at the found position, re-join. -/
def insertHeuristic (c : List Char) : List Char :=
  joinNl (insertAt ((findInsertPos (splitNl c)).getD 0) impAbcL (splitNl c))

/-- The import-ensuring step of `patch_file`: nothing when
`import collections.abc` is already present; otherwise duplicate every
`import collections\n` line into the two-line block, or fall back to the
heuristic insertion when `import collections` is absent. -/
def importStep (c : List Char) : List Char :=
  if hasSub impAbcL c then c
  else if hasSub impcL c then replaceL impcNL blkL c
  else insertHeuristic c

/-- The full text transformation of `patch_file` on the file content:
the already-patched early return leaves the content untouched; otherwise
the import step runs, then every `collections.Callable` is replaced by
`collections.abc.Callable`. -/
def patchContent (c : List Char) : List Char :=
  if alreadyPatched c then c else replaceL depL updL (importStep c)

/-- Result of one `patch_file` run: the resulting file content, whether the
file was written back, and the returned success flag. -/
structure PatchResult where
  newContent : List Char
  wrote : Bool
  ok : Bool
  deriving Repr, DecidableEq

/-- One run of `patch_file` on content `c`: the already-patched branch
returns success without writing; otherwise the transformation runs and the
file is written back exactly when the content changed (both branches return
success). -/
def patchRun (c : List Char) : PatchResult :=
  if alreadyPatched c then ⟨c, false, true⟩
  else
    let c2 := replaceL depL updL (importStep c)
    if c2 ≠ c then ⟨c2, true, true⟩ else ⟨c2, false, true⟩

end Patch

namespace Script

theorem isPfx_nil_left (s : List Char) : isPfx [] s = true := rfl

theorem isPfx_cons_nil (a : Char) (as : List Char) : isPfx (a :: as) [] = false := rfl

theorem isPfx_cons_cons (a b : Char) (as bs : List Char) :
    isPfx (a :: as) (b :: bs) = if a = b then isPfx as bs else false := rfl

theorem isPfx_iff (x : List Char) : ∀ s : List Char,
    isPfx x s = true ↔ ∃ t, s = x ++ t := by
  induction x with
  | nil => intro s; simp [isPfx]
  | cons a as ih =>
    intro s
    cases s with
    | nil =>
      constructor
      · intro h; simp [isPfx_cons_nil] at h
      · rintro ⟨t, ht⟩; simp at ht
    | cons b bs =>
      constructor
      · intro h
        by_cases hab : a = b
        · subst hab
          obtain ⟨t, ht⟩ := (ih bs).1 (by simpa [isPfx_cons_cons] using h)
          exact ⟨t, by simp [ht]⟩
        · simp [isPfx_cons_cons, hab] at h
      · rintro ⟨t, ht⟩
        injection ht with h1 h2
        subst h1
        simp only [isPfx_cons_cons, if_pos rfl]
        exact (ih bs).2 ⟨t, h2⟩

theorem isPfx_append_self (x t : List Char) : isPfx x (x ++ t) = true :=
  (isPfx_iff x (x ++ t)).2 ⟨t, rfl⟩

theorem isPfx_refl (x : List Char) : isPfx x x = true := by
  simpa using isPfx_append_self x []

theorem isPfx_length {x s : List Char} (h : isPfx x s = true) :
    x.length ≤ s.length := by
  obtain ⟨t, rfl⟩ := (isPfx_iff x s).1 h
  simp

theorem isPfx_nil_right {x : List Char} (h : isPfx x [] = true) : x = [] := by
  obtain ⟨t, ht⟩ := (isPfx_iff x []).1 h
  exact (List.append_eq_nil.1 ht.symm).1

theorem isPfx_append_ext {x u : List Char} (v : List Char)
    (h : isPfx x u = true) : isPfx x (u ++ v) = true := by
  obtain ⟨t, rfl⟩ := (isPfx_iff x u).1 h
  exact (isPfx_iff x _).2 ⟨t ++ v, by simp⟩

theorem isPfx_trans {x y z : List Char} (h1 : isPfx x y = true)
    (h2 : isPfx y z = true) : isPfx x z = true := by
  obtain ⟨t, rfl⟩ := (isPfx_iff x y).1 h1
  obtain ⟨u, rfl⟩ := (isPfx_iff _ z).1 h2
  exact (isPfx_iff x _).2 ⟨t ++ u, by simp⟩

theorem isPfx_take {x s : List Char} (h : isPfx x s = true) :
    s.take x.length = x := by
  obtain ⟨t, rfl⟩ := (isPfx_iff x s).1 h
  simp

theorem isPfx_drop_eq {x s : List Char} (h : isPfx x s = true) :
    s = x ++ s.drop x.length := by
  obtain ⟨t, rfl⟩ := (isPfx_iff x s).1 h
  simp

theorem isPfx_conc {x a b : List Char} (h : isPfx x (a ++ b) = true)
    (hl : x.length ≤ a.length) : isPfx x a = true := by
  induction a generalizing x with
  | nil =>
    have : x = [] := List.length_eq_zero.1 (Nat.le_zero.1 (by simpa using hl))
    simp [this, isPfx_nil_left]
  | cons d ds ih =>
    cases x with
    | nil => exact isPfx_nil_left _
    | cons c cs =>
      rw [List.cons_append] at h
      rw [isPfx_cons_cons] at h ⊢
      by_cases hcd : c = d
      · rw [if_pos hcd] at h ⊢
        exact ih h (by simpa using hl)
      · rw [if_neg hcd] at h
        exact absurd h (by simp)

theorem isPfx_swap {x t b : List Char} (h : isPfx x (t ++ b) = true)
    (hl : t.length ≤ x.length) : isPfx t x = true := by
  induction t generalizing x with
  | nil => exact isPfx_nil_left _
  | cons c cs ih =>
    cases x with
    | nil => simp at hl
    | cons d ds =>
      rw [List.cons_append] at h
      rw [isPfx_cons_cons] at h ⊢
      by_cases hdc : d = c
      · rw [if_pos hdc] at h
        rw [if_pos hdc.symm]
        exact ih h (by simpa using hl)
      · rw [if_neg hdc] at h
        exact absurd h (by simp)

theorem isPfx_of_isPfx_of_le {x y s : List Char} (hx : isPfx x s = true)
    (hy : isPfx y s = true) (hl : x.length ≤ y.length) : isPfx x y = true := by
  obtain ⟨t, rfl⟩ := (isPfx_iff y s).1 hy
  exact isPfx_conc hx hl

theorem isPfx_drop {x s : List Char} (n : Nat) (h : isPfx x s = true) :
    isPfx (x.drop n) (s.drop n) = true := by
  obtain ⟨t, rfl⟩ := (isPfx_iff x s).1 h
  rcases Nat.le_total n x.length with hn | hn
  · refine (isPfx_iff _ _).2 ⟨t, ?_⟩
    rw [List.drop_append_eq_append_drop]
    rw [Nat.sub_eq_zero_of_le hn, List.drop]
  · rw [List.drop_eq_nil_of_le (by simpa using hn)]
    exact isPfx_nil_left _

end Script

namespace Script

theorem hasSub_nil (pat : List Char) : hasSub pat [] = isPfx pat [] := rfl

theorem hasSub_cons (pat : List Char) (c : Char) (cs : List Char) :
    hasSub pat (c :: cs) = (isPfx pat (c :: cs) || hasSub pat cs) := rfl

theorem hasSub_iff (pat : List Char) : ∀ s : List Char,
    hasSub pat s = true ↔ ∃ n, isPfx pat (s.drop n) = true := by
  intro s
  induction s with
  | nil =>
    rw [hasSub_nil]
    constructor
    · intro h; exact ⟨0, h⟩
    · rintro ⟨n, hn⟩; simpa using hn
  | cons c cs ih =>
    rw [hasSub_cons]
    constructor
    · intro h
      rcases Bool.or_eq_true_iff.1 h with h0 | hrest
      · exact ⟨0, h0⟩
      · obtain ⟨n, hn⟩ := ih.1 hrest
        exact ⟨n + 1, hn⟩
    · rintro ⟨n, hn⟩
      cases n with
      | zero => exact Bool.or_eq_true_iff.2 (Or.inl hn)
      | succ m => exact Bool.or_eq_true_iff.2 (Or.inr (ih.2 ⟨m, hn⟩))

theorem hasSub_of_isPfx {X u : List Char} (h : isPfx X u = true) :
    hasSub X u = true :=
  (hasSub_iff X u).2 ⟨0, h⟩

theorem hasSub_nil_iff {pat : List Char} : hasSub pat [] = true ↔ pat = [] := by
  rw [hasSub_nil]
  exact ⟨fun h => isPfx_nil_right h, fun h => by subst h; rfl⟩

theorem ne_nil_of_hasSub_false {pat s : List Char} (h : hasSub pat s = false) :
    pat ≠ [] := by
  intro hp
  subst hp
  cases s with
  | nil => simp [hasSub_nil, isPfx_nil_left] at h
  | cons c cs => simp [hasSub_cons, isPfx_nil_left] at h

theorem hasSub_drop {X s : List Char} (n : Nat)
    (h : hasSub X (s.drop n) = true) : hasSub X s = true := by
  obtain ⟨m, hm⟩ := (hasSub_iff X _).1 h
  rw [List.drop_drop] at hm
  exact (hasSub_iff X s).2 ⟨_, hm⟩

theorem hasSub_append_right {X b : List Char} (a : List Char)
    (h : hasSub X b = true) : hasSub X (a ++ b) = true := by
  obtain ⟨n, hn⟩ := (hasSub_iff X b).1 h
  refine (hasSub_iff X (a ++ b)).2 ⟨a.length + n, ?_⟩
  rw [List.drop_append_eq_append_drop]
  have h1 : a.drop (a.length + n) = [] := List.drop_eq_nil_of_le (by omega)
  rw [h1, List.nil_append]
  have h2 : a.length + n - a.length = n := by omega
  rw [h2]
  exact hn

theorem hasSub_append_left {X a : List Char} (b : List Char)
    (h : hasSub X a = true) : hasSub X (a ++ b) = true := by
  obtain ⟨n, hn⟩ := (hasSub_iff X a).1 h
  rcases Nat.le_total n a.length with hle | hle
  · refine (hasSub_iff X (a ++ b)).2 ⟨n, ?_⟩
    rw [List.drop_append_eq_append_drop, Nat.sub_eq_zero_of_le hle, List.drop]
    exact isPfx_append_ext b hn
  · rw [List.drop_eq_nil_of_le hle] at hn
    have hX := isPfx_nil_right hn
    subst hX
    exact (hasSub_iff [] (a ++ b)).2 ⟨0, isPfx_nil_left _⟩

theorem hasSub_of_isPfx_sub {X Y s : List Char} (hXY : isPfx Y X = true)
    (h : hasSub X s = true) : hasSub Y s = true := by
  obtain ⟨n, hn⟩ := (hasSub_iff X s).1 h
  exact (hasSub_iff Y s).2 ⟨n, isPfx_trans hXY hn⟩

theorem hasSub_append_iff (X a b : List Char) :
    hasSub X (a ++ b) = true ↔
      (∃ i, i < a.length ∧ isPfx X (a.drop i ++ b) = true) ∨ hasSub X b = true := by
  induction a with
  | nil =>
    simp only [List.nil_append, List.length_nil]
    constructor
    · intro h; exact Or.inr h
    · rintro (⟨i, hi, _⟩ | h)
      · omega
      · exact h
  | cons c cs ih =>
    rw [List.cons_append, hasSub_cons]
    constructor
    · intro h
      rcases Bool.or_eq_true_iff.1 h with h0 | hrest
      · exact Or.inl ⟨0, by simp, by simpa using h0⟩
      · rcases ih.1 hrest with ⟨i, hi, hp⟩ | hb
        · exact Or.inl ⟨i + 1, by simpa using Nat.succ_lt_succ hi, by simpa using hp⟩
        · exact Or.inr hb
    · intro h
      refine Bool.or_eq_true_iff.2 ?_
      rcases h with ⟨i, hi, hp⟩ | hb
      · cases i with
        | zero => exact Or.inl (by simpa using hp)
        | succ j =>
          refine Or.inr (ih.2 (Or.inl ⟨j, ?_, ?_⟩))
          · simpa using Nat.lt_of_succ_lt_succ hi
          · simpa using hp
      · exact Or.inr (ih.2 (Or.inr hb))

end Script

namespace Script

theorem replaceF_nil (pat rep : List Char) :
    ∀ n, replaceF pat rep n [] = []
  | 0 => rfl
  | _ + 1 => rfl

theorem countF_nil (pat : List Char) : ∀ n, countF pat n [] = 0
  | 0 => rfl
  | _ + 1 => rfl

theorem replaceF_fuel (pat rep : List Char) :
    ∀ n s, s.length ≤ n → ∀ m, s.length ≤ m →
      replaceF pat rep n s = replaceF pat rep m s := by
  intro n
  induction n with
  | zero =>
    intro s hs m _
    have hnil : s = [] := List.length_eq_zero.1 (Nat.le_zero.1 hs)
    subst hnil
    rw [replaceF_nil, replaceF_nil]
  | succ k ih =>
    intro s hs m hm
    cases s with
    | nil => rw [replaceF_nil, replaceF_nil]
    | cons c cs =>
      cases m with
      | zero => simp at hm
      | succ j =>
        have hcs : cs.length ≤ k := by simpa using hs
        have hcj : cs.length ≤ j := by simpa using hm
        by_cases hmatch : isPfx pat (c :: cs) = true ∧ pat ≠ []
        · have hdl : (List.drop (pat.length - 1) cs).length ≤ cs.length := by
            simp
          simp only [replaceF, if_pos hmatch]
          exact congrArg (rep ++ ·)
            (ih _ (le_trans hdl hcs) j (le_trans hdl hcj))
        · simp only [replaceF, if_neg hmatch]
          exact congrArg (c :: ·) (ih _ hcs j hcj)

theorem countF_fuel (pat : List Char) :
    ∀ n s, s.length ≤ n → ∀ m, s.length ≤ m →
      countF pat n s = countF pat m s := by
  intro n
  induction n with
  | zero =>
    intro s hs m _
    have hnil : s = [] := List.length_eq_zero.1 (Nat.le_zero.1 hs)
    subst hnil
    rw [countF_nil, countF_nil]
  | succ k ih =>
    intro s hs m hm
    cases s with
    | nil => rw [countF_nil, countF_nil]
    | cons c cs =>
      cases m with
      | zero => simp at hm
      | succ j =>
        have hcs : cs.length ≤ k := by simpa using hs
        have hcj : cs.length ≤ j := by simpa using hm
        by_cases hmatch : isPfx pat (c :: cs) = true ∧ pat ≠ []
        · have hdl : (List.drop (pat.length - 1) cs).length ≤ cs.length := by
            simp
          simp only [countF, if_pos hmatch]
          exact congrArg (1 + ·)
            (ih _ (le_trans hdl hcs) j (le_trans hdl hcj))
        · simp only [countF, if_neg hmatch]
          exact ih _ hcs j hcj

theorem replaceL_nil (pat rep : List Char) : replaceL pat rep [] = [] := rfl

theorem countOcc_nil (pat : List Char) : countOcc pat [] = 0 := rfl

theorem drop_length_cons {pat : List Char} (hp : pat ≠ []) (c : Char)
    (cs : List Char) :
    List.drop pat.length (c :: cs) = List.drop (pat.length - 1) cs := by
  cases pat with
  | nil => exact absurd rfl hp
  | cons p ps => simp

theorem replaceL_match {pat s : List Char} (rep : List Char)
    (h : isPfx pat s = true) (hp : pat ≠ []) :
    replaceL pat rep s = rep ++ replaceL pat rep (s.drop pat.length) := by
  cases s with
  | nil =>
    exact absurd (isPfx_nil_right h) hp
  | cons c cs =>
    show replaceF pat rep (c :: cs).length (c :: cs) = _
    simp only [List.length_cons, replaceF, if_pos (And.intro h hp)]
    rw [drop_length_cons hp]
    exact congrArg (rep ++ ·)
      (replaceF_fuel pat rep cs.length _ (by simp) _ (le_refl _))

theorem replaceL_nomatch {pat : List Char} (rep : List Char) {c : Char}
    {cs : List Char} (h : isPfx pat (c :: cs) = false) :
    replaceL pat rep (c :: cs) = c :: replaceL pat rep cs := by
  show replaceF pat rep (c :: cs).length (c :: cs) = _
  have hcond : ¬(isPfx pat (c :: cs) = true ∧ pat ≠ []) := by simp [h]
  simp only [List.length_cons, replaceF, if_neg hcond]
  rfl

theorem countOcc_match {pat s : List Char} (h : isPfx pat s = true)
    (hp : pat ≠ []) :
    countOcc pat s = 1 + countOcc pat (s.drop pat.length) := by
  cases s with
  | nil =>
    exact absurd (isPfx_nil_right h) hp
  | cons c cs =>
    show countF pat (c :: cs).length (c :: cs) = _
    simp only [List.length_cons, countF, if_pos (And.intro h hp)]
    rw [drop_length_cons hp]
    exact congrArg (1 + ·)
      (countF_fuel pat cs.length _ (by simp) _ (le_refl _))

theorem countOcc_nomatch {pat : List Char} {c : Char}
    {cs : List Char} (h : isPfx pat (c :: cs) = false) :
    countOcc pat (c :: cs) = countOcc pat cs := by
  show countF pat (c :: cs).length (c :: cs) = _
  have hcond : ¬(isPfx pat (c :: cs) = true ∧ pat ≠ []) := by simp [h]
  simp only [List.length_cons, countF, if_neg hcond]
  rfl

end Script

namespace Script

theorem isPfx_nil_false {pat : List Char} (hp : pat ≠ []) :
    isPfx pat [] = false := by
  cases pat with
  | nil => exact absurd rfl hp
  | cons p ps => rfl

theorem isPfx_cons_iff {a b : Char} {as bs : List Char} :
    isPfx (a :: as) (b :: bs) = true ↔ a = b ∧ isPfx as bs = true := by
  rw [isPfx_cons_cons]
  by_cases hab : a = b
  · simp [hab]
  · simp [hab]

theorem drop_succ_of_drop_cons {pat ys : List Char} {y : Char} {j : Nat}
    (h : pat.drop j = y :: ys) : pat.drop (j + 1) = ys := by
  have h1 : (pat.drop j).drop 1 = pat.drop (j + 1) := List.drop_drop 1 j pat
  rw [h] at h1
  simpa using h1.symm

theorem lt_length_of_drop_ne_nil {pat : List Char} {j : Nat}
    (h : pat.drop j ≠ []) : j < pat.length := by
  by_contra hc
  exact h (List.drop_eq_nil_of_le (by omega))

theorem replace_id {pat rep s : List Char} (h : hasSub pat s = false) :
    replaceL pat rep s = s := by
  induction s with
  | nil => exact replaceL_nil pat rep
  | cons c cs ih =>
    rw [hasSub_cons, Bool.or_eq_false_iff] at h
    rw [replaceL_nomatch rep h.1, ih h.2]

theorem replace_safe_aux {pat rep : List Char}
    (hp : pat ≠ []) (hlen : pat.length ≤ rep.length)
    (hA3 : hasSub pat rep = false)
    (hA4 : ∀ i, 1 ≤ i → i < rep.length → isPfx (rep.drop i) pat = false)
    (hA5 : ∀ j, 1 ≤ j → j < pat.length → isPfx (pat.drop j) rep = false) :
    ∀ n s, s.length ≤ n →
      (∀ j, 1 ≤ j → j < pat.length →
        isPfx (pat.drop j) (replaceL pat rep s) = true →
        isPfx (pat.drop j) s = true)
      ∧ hasSub pat (replaceL pat rep s) = false := by
  intro n
  induction n with
  | zero =>
    intro s hs
    have hnil : s = [] := List.length_eq_zero.1 (Nat.le_zero.1 hs)
    subst hnil
    rw [replaceL_nil]
    exact ⟨fun j h1 h2 hpf => hpf, by rw [hasSub_nil]; exact isPfx_nil_false hp⟩
  | succ k ih =>
    intro s hs
    cases s with
    | nil =>
      rw [replaceL_nil]
      exact ⟨fun j h1 h2 hpf => hpf, by rw [hasSub_nil]; exact isPfx_nil_false hp⟩
    | cons c cs =>
      have hcs : cs.length ≤ k := by simpa using hs
      have hp1 : 1 ≤ pat.length := List.length_pos.2 hp
      by_cases hm : isPfx pat (c :: cs) = true
      · -- a match at the head: the output starts with rep
        have heq := replaceL_match rep hm hp
        have hlt : ((c :: cs).drop pat.length).length ≤ k := by
          have h1 : ((c :: cs).drop pat.length).length
              = (c :: cs).length - pat.length := by simp
          have h2 : (c :: cs).length = cs.length + 1 := by simp
          omega
        obtain ⟨ihm2, ihm1⟩ := ih _ hlt
        constructor
        · intro j hj1 hj2 hpf
          rw [heq] at hpf
          have hylen : (pat.drop j).length ≤ rep.length := by
            have : (pat.drop j).length = pat.length - j := by simp
            omega
          have hyr : isPfx (pat.drop j) rep = true := isPfx_conc hpf hylen
          rw [hA5 j hj1 hj2] at hyr
          exact absurd hyr (by simp)
        · rw [heq]
          cases hx : hasSub pat (rep ++ replaceL pat rep ((c :: cs).drop pat.length)) with
          | false => rfl
          | true =>
            exfalso
            rcases (hasSub_append_iff pat rep _).1 hx with ⟨i, hi, hpf⟩ | hsb
            · rcases Nat.lt_or_ge (rep.drop i).length pat.length with hlt2 | hge
              · have h1 : isPfx (rep.drop i) pat = true :=
                  isPfx_swap hpf (Nat.le_of_lt hlt2)
                have hi1 : 1 ≤ i := by
                  by_contra hi0
                  have hz : i = 0 := by omega
                  subst hz
                  simp only [List.drop_zero] at hlt2
                  omega
                rw [hA4 i hi1 hi] at h1
                exact Bool.false_ne_true h1
              · have h1 : isPfx pat (rep.drop i) = true := isPfx_conc hpf hge
                have h2 : hasSub pat rep = true := (hasSub_iff pat rep).2 ⟨i, h1⟩
                rw [hA3] at h2
                exact Bool.false_ne_true h2
            · rw [ihm1] at hsb
              exact Bool.false_ne_true hsb
      · -- no match at the head: the head character is kept
        have hmf : isPfx pat (c :: cs) = false := by
          cases hv : isPfx pat (c :: cs) with
          | false => rfl
          | true => exact absurd hv hm
        have heq := replaceL_nomatch rep hmf
        obtain ⟨ihm2, ihm1⟩ := ih cs hcs
        constructor
        · intro j hj1 hj2 hpf
          rw [heq] at hpf
          cases hY : pat.drop j with
          | nil => exact isPfx_nil_left _
          | cons y ys =>
            rw [hY, isPfx_cons_iff] at hpf
            obtain ⟨hyc, hys⟩ := hpf
            rw [isPfx_cons_iff]
            refine ⟨hyc, ?_⟩
            cases ys with
            | nil => exact isPfx_nil_left cs
            | cons z zs =>
              have hdrop : pat.drop (j + 1) = z :: zs := drop_succ_of_drop_cons hY
              have hjlt : j + 1 < pat.length :=
                lt_length_of_drop_ne_nil (by rw [hdrop]; simp)
              have hys2 := ihm2 (j + 1) (by omega) hjlt (by rw [hdrop]; exact hys)
              rw [hdrop] at hys2
              exact hys2
        · rw [heq, hasSub_cons, Bool.or_eq_false_iff]
          refine ⟨?_, ihm1⟩
          cases hv : isPfx pat (c :: replaceL pat rep cs) with
          | false => rfl
          | true =>
            exfalso
            apply hm
            obtain ⟨p, ps, hpat⟩ : ∃ p ps, pat = p :: ps := by
              cases pat with
              | nil => exact absurd rfl hp
              | cons p ps => exact ⟨p, ps, rfl⟩
            have hv2 : isPfx (p :: ps) (c :: replaceL pat rep cs) = true := by
              rw [← hpat]
              exact hv
            rw [isPfx_cons_iff] at hv2
            obtain ⟨hpc, hps⟩ := hv2
            cases hps0 : ps with
            | nil =>
              rw [hpat, hps0, isPfx_cons_iff]
              exact ⟨hpc, isPfx_nil_left cs⟩
            | cons q qs =>
              have hd1 : pat.drop 1 = ps := by rw [hpat]; rfl
              have h1lt : 1 < pat.length := by
                rw [hpat, hps0]
                simp
              have hcs2 : isPfx ps cs = true := by
                have h := ihm2 1 (le_refl 1) h1lt (by rw [hd1]; exact hps)
                rw [hd1] at h
                exact h
              rw [hpat, isPfx_cons_iff]
              exact ⟨hpc, hcs2⟩

theorem replace_no_reintro {pat rep : List Char}
    (hp : pat ≠ []) (hlen : pat.length ≤ rep.length)
    (hA3 : hasSub pat rep = false)
    (hA4 : ∀ i, 1 ≤ i → i < rep.length → isPfx (rep.drop i) pat = false)
    (hA5 : ∀ j, 1 ≤ j → j < pat.length → isPfx (pat.drop j) rep = false)
    (s : List Char) : hasSub pat (replaceL pat rep s) = false :=
  (replace_safe_aux hp hlen hA3 hA4 hA5 s.length s (le_refl _)).2

theorem replace_idem {pat rep : List Char}
    (hp : pat ≠ []) (hlen : pat.length ≤ rep.length)
    (hA3 : hasSub pat rep = false)
    (hA4 : ∀ i, 1 ≤ i → i < rep.length → isPfx (rep.drop i) pat = false)
    (hA5 : ∀ j, 1 ≤ j → j < pat.length → isPfx (pat.drop j) rep = false)
    (s : List Char) :
    replaceL pat rep (replaceL pat rep s) = replaceL pat rep s :=
  replace_id (replace_no_reintro hp hlen hA3 hA4 hA5 s)

end Script

namespace Script

theorem isPfx_take_self (l : List Char) (n : Nat) : isPfx (l.take n) l = true :=
  (isPfx_iff _ _).2 ⟨l.drop n, (List.take_append_drop n l).symm⟩

theorem pres_strong {X pat rep : List Char}
    (hp : pat ≠ [])
    (hB2 : hasSub pat X = false)
    (hB5 : ∀ k, 1 ≤ k → k ≤ X.length → k ≤ pat.length →
      X.drop (X.length - k) = pat.take k →
      (k ≤ rep.length ∧ rep.take k = pat.take k)) :
    ∀ n s, s.length ≤ n → ∀ j, j < X.length →
      isPfx (X.drop j) s = true → isPfx (X.drop j) (replaceL pat rep s) = true := by
  intro n
  induction n with
  | zero =>
    intro s hs j hj hpf
    have hnil : s = [] := List.length_eq_zero.1 (Nat.le_zero.1 hs)
    subst hnil
    have hY : X.drop j = [] := isPfx_nil_right hpf
    have := List.drop_eq_nil_iff.1 hY
    omega
  | succ k ih =>
    intro s hs j hj hpf
    cases s with
    | nil =>
      have hY : X.drop j = [] := isPfx_nil_right hpf
      have := List.drop_eq_nil_iff.1 hY
      omega
    | cons c cs =>
      have hcs : cs.length ≤ k := by simpa using hs
      have hp1 : 1 ≤ pat.length := List.length_pos.2 hp
      by_cases hm : isPfx pat (c :: cs) = true
      · -- the head is a match: output starts with rep
        rw [replaceL_match rep hm hp]
        rcases le_or_lt (X.drop j).length pat.length with hle | hlt
        · -- the remaining suffix of X is a prefix of pat: rep compensates
          have hYpat : isPfx (X.drop j) pat = true :=
            isPfx_of_isPfx_of_le hpf hm hle
          have hYlen : (X.drop j).length = X.length - j := by simp
          have hktake : pat.take (X.length - j) = X.drop j := by
            have := isPfx_take hYpat
            rw [hYlen] at this
            exact this
          obtain ⟨hkrep, hreptake⟩ :=
            hB5 (X.length - j) (by omega) (by omega) (by omega)
              (by rw [Nat.sub_sub_self (Nat.le_of_lt hj), hktake])
          have hYrep : isPfx (X.drop j) rep = true := by
            rw [← hktake, ← hreptake]
            exact isPfx_take_self rep _
          exact isPfx_append_ext _ hYrep
        · -- pat would be an inner occurrence of X, excluded
          have hpatY : isPfx pat (X.drop j) = true :=
            isPfx_of_isPfx_of_le hm hpf (Nat.le_of_lt hlt)
          have h1 : hasSub pat (X.drop j) = true := hasSub_of_isPfx hpatY
          have h2 : hasSub pat X = true := hasSub_drop j h1
          rw [hB2] at h2
          exact absurd h2 (by simp)
      · have hmf : isPfx pat (c :: cs) = false := by
          cases hv : isPfx pat (c :: cs) with
          | false => rfl
          | true => exact absurd hv hm
        rw [replaceL_nomatch rep hmf]
        cases hY : X.drop j with
        | nil => exact isPfx_nil_left _
        | cons y ys =>
          rw [hY, isPfx_cons_iff] at hpf
          obtain ⟨hyc, hys⟩ := hpf
          rw [isPfx_cons_iff]
          refine ⟨hyc, ?_⟩
          cases ys with
          | nil => exact isPfx_nil_left _
          | cons z zs =>
            have hdrop : X.drop (j + 1) = z :: zs := drop_succ_of_drop_cons hY
            have hjlt : j + 1 < X.length :=
              lt_length_of_drop_ne_nil (by rw [hdrop]; simp)
            have h := ih cs hcs (j + 1) hjlt (by rw [hdrop]; exact hys)
            rw [hdrop] at h
            exact h

theorem pres_hasSub {X pat rep : List Char}
    (hp : pat ≠ []) (hX : X ≠ [])
    (hB2 : hasSub pat X = false)
    (hB3 : hasSub X pat = false)
    (hB4 : ∀ t, 1 ≤ t → t < pat.length → isPfx (pat.drop t) X = false)
    (hB5 : ∀ k, 1 ≤ k → k ≤ X.length → k ≤ pat.length →
      X.drop (X.length - k) = pat.take k →
      (k ≤ rep.length ∧ rep.take k = pat.take k)) :
    ∀ n s, s.length ≤ n →
      hasSub X s = true → hasSub X (replaceL pat rep s) = true := by
  intro n
  induction n with
  | zero =>
    intro s hs h
    have hnil : s = [] := List.length_eq_zero.1 (Nat.le_zero.1 hs)
    subst hnil
    exact absurd (hasSub_nil_iff.1 h) hX
  | succ k ih =>
    intro s hs h
    cases s with
    | nil => exact absurd (hasSub_nil_iff.1 h) hX
    | cons c cs =>
      have hcs : cs.length ≤ k := by simpa using hs
      have hp1 : 1 ≤ pat.length := List.length_pos.2 hp
      have hX1 : 0 < X.length := List.length_pos.2 hX
      by_cases hm : isPfx pat (c :: cs) = true
      · rw [replaceL_match rep hm hp]
        obtain ⟨t, hts⟩ := (hasSub_iff X _).1 h
        rcases Nat.lt_or_ge t pat.length with htp | htp
        · rcases Nat.eq_zero_or_pos t with ht0 | ht0
          · subst ht0
            rw [List.drop_zero] at hts
            have h0 := pres_strong hp hB2 hB5 (c :: cs).length _ (le_refl _)
              0 hX1 (by rw [List.drop_zero]; exact hts)
            rw [List.drop_zero] at h0
            rw [replaceL_match rep hm hp] at h0
            exact hasSub_of_isPfx h0
          · -- an occurrence of X starting strictly inside the match: impossible
            exfalso
            have hpats : isPfx (pat.drop t) ((c :: cs).drop t) = true :=
              isPfx_drop t hm
            rcases le_or_lt X.length (pat.drop t).length with hle | hlt
            · have h1 : isPfx X (pat.drop t) = true :=
                isPfx_of_isPfx_of_le hts hpats hle
              have h2 : hasSub X pat = true := hasSub_drop t (hasSub_of_isPfx h1)
              rw [hB3] at h2
              exact Bool.false_ne_true h2
            · have h1 : isPfx (pat.drop t) X = true :=
                isPfx_of_isPfx_of_le hpats hts (Nat.le_of_lt hlt)
              rw [hB4 t ht0 htp] at h1
              exact Bool.false_ne_true h1
        · -- the occurrence lies beyond the match
          have hdd : ((c :: cs).drop pat.length).drop (t - pat.length)
              = (c :: cs).drop t := by
            rw [List.drop_drop]
            have hadd : pat.length + (t - pat.length) = t := by omega
            rw [hadd]
          have h1 : hasSub X ((c :: cs).drop pat.length) = true :=
            (hasSub_iff X _).2 ⟨t - pat.length, by rw [hdd]; exact hts⟩
          have hlt2 : ((c :: cs).drop pat.length).length ≤ k := by
            have hd : ((c :: cs).drop pat.length).length
                = (c :: cs).length - pat.length := by simp
            have hc2 : (c :: cs).length = cs.length + 1 := by simp
            omega
          exact hasSub_append_right rep (ih _ hlt2 h1)
      · have hmf : isPfx pat (c :: cs) = false := by
          cases hv : isPfx pat (c :: cs) with
          | false => rfl
          | true => exact absurd hv hm
        rw [replaceL_nomatch rep hmf]
        rw [hasSub_cons] at h
        rw [hasSub_cons]
        rcases Bool.or_eq_true_iff.1 h with h0 | hrest
        · have h1 := pres_strong hp hB2 hB5 (c :: cs).length _ (le_refl _)
            0 hX1 (by rw [List.drop_zero]; exact h0)
          rw [List.drop_zero, replaceL_nomatch rep hmf] at h1
          exact Bool.or_eq_true_iff.2 (Or.inl h1)
        · exact Bool.or_eq_true_iff.2 (Or.inr (ih cs hcs hrest))

theorem nc_strong {X pat rep : List Char}
    (hp : pat ≠ [])
    (hE2 : ∀ j, j < X.length → isPfx (X.drop j) rep = false)
    (hE3 : ∀ j, j < X.length → isPfx rep (X.drop j) = false) :
    ∀ n s, s.length ≤ n → ∀ j, j < X.length →
      isPfx (X.drop j) (replaceL pat rep s) = true → isPfx (X.drop j) s = true := by
  intro n
  induction n with
  | zero =>
    intro s hs j hj hpf
    have hnil : s = [] := List.length_eq_zero.1 (Nat.le_zero.1 hs)
    subst hnil
    rw [replaceL_nil] at hpf
    exact hpf
  | succ k ih =>
    intro s hs j hj hpf
    cases s with
    | nil =>
      rw [replaceL_nil] at hpf
      exact hpf
    | cons c cs =>
      have hcs : cs.length ≤ k := by simpa using hs
      by_cases hm : isPfx pat (c :: cs) = true
      · exfalso
        rw [replaceL_match rep hm hp] at hpf
        rcases le_or_lt (X.drop j).length rep.length with hle | hlt
        · have h1 : isPfx (X.drop j) rep = true := isPfx_conc hpf hle
          rw [hE2 j hj] at h1
          exact Bool.false_ne_true h1
        · have h1 : isPfx rep (X.drop j) = true :=
            isPfx_swap hpf (Nat.le_of_lt hlt)
          rw [hE3 j hj] at h1
          exact Bool.false_ne_true h1
      · have hmf : isPfx pat (c :: cs) = false := by
          cases hv : isPfx pat (c :: cs) with
          | false => rfl
          | true => exact absurd hv hm
        rw [replaceL_nomatch rep hmf] at hpf
        cases hY : X.drop j with
        | nil => exact isPfx_nil_left _
        | cons y ys =>
          rw [hY, isPfx_cons_iff] at hpf
          obtain ⟨hyc, hys⟩ := hpf
          rw [isPfx_cons_iff]
          refine ⟨hyc, ?_⟩
          cases ys with
          | nil => exact isPfx_nil_left _
          | cons z zs =>
            have hdrop : X.drop (j + 1) = z :: zs := drop_succ_of_drop_cons hY
            have hjlt : j + 1 < X.length :=
              lt_length_of_drop_ne_nil (by rw [hdrop]; simp)
            have h := ih cs hcs (j + 1) hjlt (by rw [hdrop]; exact hys)
            rw [hdrop] at h
            exact h

theorem nc_hasSub {X pat rep : List Char}
    (hp : pat ≠ []) (hX : X ≠ [])
    (hG2 : hasSub X rep = false)
    (hG4 : ∀ i, i < rep.length → isPfx (rep.drop i) X = false)
    (hE2 : ∀ j, j < X.length → isPfx (X.drop j) rep = false)
    (hE3 : ∀ j, j < X.length → isPfx rep (X.drop j) = false) :
    ∀ n s, s.length ≤ n →
      hasSub X (replaceL pat rep s) = true → hasSub X s = true := by
  intro n
  induction n with
  | zero =>
    intro s hs h
    have hnil : s = [] := List.length_eq_zero.1 (Nat.le_zero.1 hs)
    subst hnil
    rw [replaceL_nil] at h
    exact h
  | succ k ih =>
    intro s hs h
    cases s with
    | nil =>
      rw [replaceL_nil] at h
      exact h
    | cons c cs =>
      have hcs : cs.length ≤ k := by simpa using hs
      have hp1 : 1 ≤ pat.length := List.length_pos.2 hp
      by_cases hm : isPfx pat (c :: cs) = true
      · rw [replaceL_match rep hm hp] at h
        rcases (hasSub_append_iff X rep _).1 h with ⟨i, hi, hpf⟩ | hsb
        · exfalso
          rcases le_or_lt X.length (rep.drop i).length with hle | hlt
          · have h1 : isPfx X (rep.drop i) = true := isPfx_conc hpf hle
            have h2 : hasSub X rep = true := (hasSub_iff X rep).2 ⟨i, h1⟩
            rw [hG2] at h2
            exact Bool.false_ne_true h2
          · have h1 : isPfx (rep.drop i) X = true :=
              isPfx_swap hpf (Nat.le_of_lt hlt)
            rw [hG4 i hi] at h1
            exact Bool.false_ne_true h1
        · have hlt2 : ((c :: cs).drop pat.length).length ≤ k := by
            have hd : ((c :: cs).drop pat.length).length
                = (c :: cs).length - pat.length := by simp
            have hc2 : (c :: cs).length = cs.length + 1 := by simp
            omega
          exact hasSub_drop pat.length (ih _ hlt2 hsb)
      · have hmf : isPfx pat (c :: cs) = false := by
          cases hv : isPfx pat (c :: cs) with
          | false => rfl
          | true => exact absurd hv hm
        rw [replaceL_nomatch rep hmf] at h
        rw [hasSub_cons] at h
        rw [hasSub_cons]
        rcases Bool.or_eq_true_iff.1 h with h0 | hrest
        · refine Bool.or_eq_true_iff.2 (Or.inl ?_)
          obtain ⟨x, xs, hXeq⟩ : ∃ x xs, X = x :: xs := by
            cases X with
            | nil => exact absurd rfl hX
            | cons x xs => exact ⟨x, xs, rfl⟩
          have h0x : isPfx (x :: xs) (c :: replaceL pat rep cs) = true := by
            rw [← hXeq]
            exact h0
          rw [isPfx_cons_iff] at h0x
          obtain ⟨hxc, hxs⟩ := h0x
          cases hxs0 : xs with
          | nil =>
            rw [hXeq, hxs0, isPfx_cons_iff]
            exact ⟨hxc, isPfx_nil_left _⟩
          | cons q qs =>
            have hd1 : X.drop 1 = xs := by rw [hXeq]; rfl
            have h1lt : 1 < X.length := by
              rw [hXeq, hxs0]
              simp
            have hcs2 : isPfx xs cs = true := by
              have hh := nc_strong hp hE2 hE3 cs.length cs (le_refl _) 1 h1lt
                (by rw [hd1]; exact hxs)
              rw [hd1] at hh
              exact hh
            rw [hXeq, isPfx_cons_iff]
            exact ⟨hxc, hcs2⟩
        · exact Bool.or_eq_true_iff.2 (Or.inr (ih cs hcs hrest))

theorem intro_hasSub {X pat rep : List Char} (hp : pat ≠ [])
    (hXrep : hasSub X rep = true) :
    ∀ n s, s.length ≤ n →
      hasSub pat s = true → hasSub X (replaceL pat rep s) = true := by
  intro n
  induction n with
  | zero =>
    intro s hs h
    have hnil : s = [] := List.length_eq_zero.1 (Nat.le_zero.1 hs)
    subst hnil
    exact absurd (hasSub_nil_iff.1 h) hp
  | succ k ih =>
    intro s hs h
    cases s with
    | nil => exact absurd (hasSub_nil_iff.1 h) hp
    | cons c cs =>
      have hcs : cs.length ≤ k := by simpa using hs
      by_cases hm : isPfx pat (c :: cs) = true
      · rw [replaceL_match rep hm hp]
        exact hasSub_append_left _ hXrep
      · have hmf : isPfx pat (c :: cs) = false := by
          cases hv : isPfx pat (c :: cs) with
          | false => rfl
          | true => exact absurd hv hm
        rw [replaceL_nomatch rep hmf]
        rw [hasSub_cons] at h
        rcases Bool.or_eq_true_iff.1 h with h0 | hrest
        · rw [h0] at hmf
          exact absurd hmf (by simp)
        · rw [hasSub_cons]
          exact Bool.or_eq_true_iff.2 (Or.inr (ih cs hcs hrest))

end Script

namespace Script

theorem isPfx_take_of_append {X a b : List Char}
    (h : isPfx X (a ++ b) = true) : isPfx (X.take a.length) a = true := by
  have h1 : isPfx (X.take a.length) (a ++ b) = true :=
    isPfx_trans (isPfx_take_self X a.length) h
  have h2 : (X.take a.length).length ≤ a.length := by
    rw [List.length_take]
    exact min_le_left _ _
  exact isPfx_conc h1 h2

theorem isPfx_false_of_take_false {X a : List Char} (b : List Char)
    (h : isPfx (X.take a.length) a = false) : isPfx X (a ++ b) = false := by
  cases hv : isPfx X (a ++ b) with
  | false => rfl
  | true =>
    rw [isPfx_take_of_append hv] at h
    exact absurd h (by simp)

theorem countOcc_append_skip : ∀ (a b X : List Char),
    (∀ i, i < a.length → isPfx X (a.drop i ++ b) = false) →
    countOcc X (a ++ b) = countOcc X b := by
  intro a
  induction a with
  | nil => intro b X _; rw [List.nil_append]
  | cons c as ih =>
    intro b X h
    have h0 : isPfx X (c :: (as ++ b)) = false := by
      have hh := h 0 (by simp)
      simpa using hh
    rw [List.cons_append, countOcc_nomatch h0]
    refine ih b X (fun i hi => ?_)
    have hh := h (i + 1) (by simpa using Nat.succ_lt_succ hi)
    simpa using hh

theorem countOcc_cons_self {X : List Char} (b : List Char) (hX : X ≠ []) :
    countOcc X (X ++ b) = 1 + countOcc X b := by
  rw [countOcc_match (isPfx_append_self X b) hX, List.drop_left]

theorem countOcc_zero_of_not_hasSub {X s : List Char} (h : hasSub X s = false) :
    countOcc X s = 0 := by
  induction s with
  | nil => exact countOcc_nil X
  | cons c cs ih =>
    rw [hasSub_cons, Bool.or_eq_false_iff] at h
    rw [countOcc_nomatch h.1]
    exact ih h.2

theorem hasSub_of_countOcc_pos {X s : List Char} (h : 1 ≤ countOcc X s) :
    hasSub X s = true := by
  cases hv : hasSub X s with
  | true => rfl
  | false =>
    rw [countOcc_zero_of_not_hasSub hv] at h
    omega

theorem isPfx_cons_out_false {X pat rep : List Char} (hp : pat ≠ [])
    (hE2 : ∀ j, j < X.length → isPfx (X.drop j) rep = false)
    (hE3 : ∀ j, j < X.length → isPfx rep (X.drop j) = false)
    {c : Char} {cs : List Char}
    (hnosub : hasSub X (c :: cs) = false) :
    isPfx X (c :: replaceL pat rep cs) = false := by
  cases hv : isPfx X (c :: replaceL pat rep cs) with
  | false => rfl
  | true =>
    exfalso
    obtain ⟨x, xs, hXeq⟩ : ∃ x xs, X = x :: xs := by
      cases hX0 : X with
      | nil =>
        rw [hX0] at hnosub
        rw [hasSub_cons, isPfx_nil_left] at hnosub
        exact absurd hnosub (by simp)
      | cons x xs => exact ⟨x, xs, rfl⟩
    have hvx : isPfx (x :: xs) (c :: replaceL pat rep cs) = true := by
      rw [← hXeq]
      exact hv
    rw [isPfx_cons_iff] at hvx
    obtain ⟨hxc, hxs⟩ := hvx
    have hXsub : isPfx X (c :: cs) = true := by
      cases hxs0 : xs with
      | nil =>
        rw [hXeq, hxs0, isPfx_cons_iff]
        exact ⟨hxc, isPfx_nil_left _⟩
      | cons q qs =>
        have hd1 : X.drop 1 = xs := by rw [hXeq]; rfl
        have h1lt : 1 < X.length := by
          rw [hXeq, hxs0]
          simp
        have hcs2 : isPfx xs cs = true := by
          have hh := nc_strong hp hE2 hE3 cs.length cs (le_refl _) 1 h1lt
            (by rw [hd1]; exact hxs)
          rw [hd1] at hh
          exact hh
        rw [hXeq, isPfx_cons_iff]
        exact ⟨hxc, hcs2⟩
    rw [hasSub_cons, hXsub] at hnosub
    exact absurd hnosub (by simp)

end Script

namespace Patch

open Script

theorem blk_decomp : blkL = impcNL ++ impAbcL ++ ['\n'] := by decide

theorem impAbcL_ne_nil : impAbcL ≠ [] := by decide

theorem impcNL_ne_nil : impcNL ≠ [] := by decide

theorem impAbc_blk_left :
    ∀ j, j < impAbcL.length → isPfx (impAbcL.drop j) blkL = false := by decide

theorem impAbc_blk_right :
    ∀ j, j < impAbcL.length → isPfx blkL (impAbcL.drop j) = false := by decide

theorem impAbc_scan_impcNL : ∀ i, i < impcNL.length →
    isPfx (impAbcL.take (impcNL.drop i).length) (impcNL.drop i) = false := by
  decide

theorem impAbc_head_nl :
    isPfx (impAbcL.take (['\n'] : List Char).length) ['\n'] = false := by decide

/-- Auxiliary count for the import duplication step: replacing every
`import collections\n` by the two-line block creates exactly one
`import collections.abc` occurrence per replaced occurrence, provided the
content had none. -/
theorem count_insert_aux :
    ∀ n s, s.length ≤ n → hasSub impAbcL s = false →
      countOcc impAbcL (replaceL impcNL blkL s) = countOcc impcNL s := by
  intro n
  induction n with
  | zero =>
    intro s hs _
    have hnil : s = [] := List.length_eq_zero.1 (Nat.le_zero.1 hs)
    subst hnil
    rw [replaceL_nil, countOcc_nil, countOcc_nil]
  | succ k ih =>
    intro s hs hI
    cases s with
    | nil => rw [replaceL_nil, countOcc_nil, countOcc_nil]
    | cons c cs =>
      have hcs : cs.length ≤ k := by simpa using hs
      by_cases hm : isPfx impcNL (c :: cs) = true
      · rw [replaceL_match blkL hm impcNL_ne_nil]
        have hIdrop : hasSub impAbcL ((c :: cs).drop impcNL.length) = false := by
          cases hv : hasSub impAbcL ((c :: cs).drop impcNL.length) with
          | false => rfl
          | true =>
            exfalso
            have hcontr := hasSub_drop impcNL.length hv
            rw [hI] at hcontr
            exact Bool.false_ne_true hcontr
        have hlt2 : ((c :: cs).drop impcNL.length).length ≤ k := by
          have hd : ((c :: cs).drop impcNL.length).length
              = (c :: cs).length - impcNL.length := by simp
          have hc2 : (c :: cs).length = cs.length + 1 := by simp
          have hp1 : 1 ≤ impcNL.length := by decide
          omega
        have hrec := ih _ hlt2 hIdrop
        have hsplit : blkL ++ replaceL impcNL blkL ((c :: cs).drop impcNL.length)
            = impcNL ++ (impAbcL
              ++ ('\n' :: replaceL impcNL blkL ((c :: cs).drop impcNL.length))) := by
          rw [blk_decomp, List.append_assoc, List.append_assoc,
            List.singleton_append]
        rw [hsplit]
        rw [countOcc_append_skip _ _ _ (fun i hi =>
          isPfx_false_of_take_false _ (impAbc_scan_impcNL i hi))]
        rw [countOcc_cons_self _ impAbcL_ne_nil]
        have hnl : countOcc impAbcL
            ('\n' :: replaceL impcNL blkL ((c :: cs).drop impcNL.length))
            = countOcc impAbcL
              (replaceL impcNL blkL ((c :: cs).drop impcNL.length)) := by
          apply countOcc_nomatch
          exact isPfx_false_of_take_false _ impAbc_head_nl
        rw [hnl, hrec, countOcc_match hm impcNL_ne_nil]
      · have hmf : isPfx impcNL (c :: cs) = false := by
          cases hv : isPfx impcNL (c :: cs) with
          | false => rfl
          | true => exact absurd hv hm
        rw [replaceL_nomatch blkL hmf]
        have hIcs : hasSub impAbcL cs = false := by
          rw [hasSub_cons, Bool.or_eq_false_iff] at hI
          exact hI.2
        have hnm : isPfx impAbcL (c :: replaceL impcNL blkL cs) = false :=
          isPfx_cons_out_false impcNL_ne_nil impAbc_blk_left impAbc_blk_right hI
        rw [countOcc_nomatch hnm, ih cs hcs hIcs, countOcc_nomatch hmf]

end Patch

namespace Runner

open Script

/-- Outcome of the spawned `subprocess.run` call, as observed by `main`:
the child completed with an exit code, the call raised `TimeoutExpired`
(`wouldBe` records the exit code the child would eventually have returned,
which `main` never observes), the binary was missing (`FileNotFoundError`),
or some other exception was raised. -/
inductive ChildResult
  | completed (code : Int)
  | timedOut (wouldBe : Int)
  | binMissing
  | excep
  deriving Repr, DecidableEq

/-- The messages printed by `main`, one constructor per `print` site.  The
`err*` constructors are the prints directed at `sys.stderr`; all other
messages go to standard output. -/
inductive Event
  | usingRemaps (rs : List (List Char))
  | runningCmd (cmd : List (List Char))
  | successMsg
  | warnMsg (code : Int)
  | resultsIn (dirs : List (List Char))
  | noResultsWarn
  | timeoutWarn (secs : Nat)
  | partialResultsIn (dirs : List (List Char))
  | errRemappingsMissing
  | errNodeModulesMissing
  | errManticoreNotFound
  | errUnexpected
  deriving Repr, DecidableEq

/-- Whether a message is printed to the error stream (`file=sys.stderr`). -/
def Event.isError : Event → Bool
  | errRemappingsMissing => true
  | errNodeModulesMissing => true
  | errManticoreNotFound => true
  | errUnexpected => true
  | _ => false

/-- The environment a run of `main` observes: the parsed CLI arguments, the
existence checks at the project root, the lines of `remappings.txt` (as
iterated by `for line in f`), the child-process outcome, and the names of
the entries of the project root considered by `glob("mcore_*")` (relative
to the project root). -/
structure Env where
  contractPath : List Char
  contractName : List Char
  timeoutSecs : Nat
  remappingsExists : Bool
  nodeModulesExists : Bool
  remapLines : List (List Char)
  child : ChildResult
  rootEntries : List (List Char)

/-- The remapping-file parse loop of `main`: strip each line, keep the
nonblank lines that do not start with `#`, in file order. -/
def parseRemappings : List (List Char) → List (List Char)
  | [] => []
  | l :: ls =>
    let s := pyStrip l
    if s ≠ [] ∧ isPfx Patch.hashL s = false then s :: parseRemappings ls
    else parseRemappings ls

/-- The command-line word `manticore`. -/
def manticoreL : List Char := "manticore".toList

/-- The flag `--contract`. -/
def contractFlagL : List Char := "--contract".toList

/-- The flag `--solc-remaps`. -/
def solcRemapsFlagL : List Char := "--solc-remaps".toList

/-- The verbosity flag `-v`. -/
def vFlagL : List Char := "-v".toList

/-- The command `main` builds: `['manticore', path]`, extended with
`['--contract', name]`, then one `['--solc-remaps', r]` pair per remapping
in the loop, then `['-v']`. -/
def buildCmd (path name : List Char) (remaps : List (List Char)) :
    List (List Char) :=
  (remaps.foldl (fun cmd r => cmd ++ [solcRemapsFlagL, r])
    ([manticoreL, path] ++ [contractFlagL, name])) ++ [vFlagL]

/-- The result-directory name convention `mcore_`. -/
def mcoreL : List Char := "mcore_".toList

/-- The `project_root.glob("mcore_*")` scan: the root entries whose name
starts with `mcore_` (the glob `*` matches any remainder), in order. -/
def mcoreDirs (entries : List (List Char)) : List (List Char) :=
  entries.filter (fun nm => isPfx mcoreL nm)

/-- The result-listing block of the completed branch: list the found
directories, or warn that none were found. -/
def resultsEvents (dirs : List (List Char)) : List Event :=
  if dirs = [] then [Event.noResultsWarn] else [Event.resultsIn dirs]

/-- The result-listing block of the timeout branch: list the found
directories when there are any. -/
def partialEvents (dirs : List (List Char)) : List Event :=
  if dirs = [] then [] else [Event.partialResultsIn dirs]

/-- Result of one run of `main`: the `sys.exit` argument, the printed
messages in order, and whether `subprocess.run` was invoked. -/
structure RunResult where
  exitCode : Int
  events : List Event
  spawned : Bool
  deriving Repr, DecidableEq

/-- One run of `main` of the Analysis Runner.  Checks `remappings.txt` and
`node_modules` (exit 1 with an error before any spawn when missing), parses
the remappings, builds the command, runs it, and classifies the outcome:
exit code propagated (0 reports success, nonzero a warning) with the
`mcore_*` listing, 124 on timeout with the partial listing, 1 when the
binary is missing or an unexpected exception is raised. -/
def runMain (env : Env) : RunResult :=
  if env.remappingsExists = false then
    ⟨1, [Event.errRemappingsMissing], false⟩
  else if env.nodeModulesExists = false then
    ⟨1, [Event.errNodeModulesMissing], false⟩
  else
    let remaps := parseRemappings env.remapLines
    let cmd := buildCmd env.contractPath env.contractName remaps
    let pre := [Event.usingRemaps remaps, Event.runningCmd cmd]
    let dirs := mcoreDirs env.rootEntries
    match env.child with
    | ChildResult.completed code =>
      ⟨code,
        pre ++ [if code = 0 then Event.successMsg else Event.warnMsg code]
          ++ resultsEvents dirs, true⟩
    | ChildResult.timedOut _ =>
      ⟨124, pre ++ [Event.timeoutWarn env.timeoutSecs] ++ partialEvents dirs,
        true⟩
    | ChildResult.binMissing =>
      ⟨1, pre ++ [Event.errManticoreNotFound], true⟩
    | ChildResult.excep =>
      ⟨1, pre ++ [Event.errUnexpected], true⟩

end Runner

namespace Claims

open Script

/-- The parsed remapping list as the spec describes it: the
whitespace-stripped non-blank lines whose stripped form does not start
with `#`, in original file order, duplicates retained. -/
def specParsedRemappings (lines : List (List Char)) : List (List Char) :=
  (lines.map pyStrip).filter
    (fun s => !s.isEmpty && !(isPfx Patch.hashL s))

/-- C3: for every remappings file, the parsed remapping list equals exactly
the whitespace-stripped non-blank lines whose stripped form does not start
with `#`, in original order, duplicates retained, with no other
modification. -/
theorem c3_remappings_parse (lines : List (List Char)) :
    Runner.parseRemappings lines = specParsedRemappings lines := by
  induction lines with
  | nil => rfl
  | cons l ls ih =>
    unfold Runner.parseRemappings specParsedRemappings
    unfold specParsedRemappings at ih
    simp only [List.map_cons, List.filter_cons]
    by_cases h1 : pyStrip l = []
    · simp [h1, ih]
    · by_cases h2 : isPfx Patch.hashL (pyStrip l) = false
      · simp [h1, h2, ih]
      · have h2t : isPfx Patch.hashL (pyStrip l) = true := by
          cases hv : isPfx Patch.hashL (pyStrip l) with
          | false => exact absurd hv h2
          | true => rfl
        simp [h1, h2t, ih]

theorem buildCmd_foldl (a : List Char) :
    ∀ (rs : List (List Char)) (acc : List (List Char)),
      rs.foldl (fun cmd r => cmd ++ [a, r]) acc
        = acc ++ rs.flatMap (fun r => [a, r]) := by
  intro rs
  induction rs with
  | nil => intro acc; simp
  | cons r rs ih =>
    intro acc
    simp only [List.foldl_cons, List.flatMap_cons, ih]
    simp [List.append_assoc]

/-- C4: the constructed command list equals exactly
`['manticore', path, '--contract', name]` followed by one
`['--solc-remaps', r]` pair per remapping in preserved order, followed by
`['-v']`. -/
theorem c4_command_shape (p nm : List Char) (rs : List (List Char)) :
    Runner.buildCmd p nm rs
      = [Runner.manticoreL, p, Runner.contractFlagL, nm]
        ++ (rs.flatMap fun r => [Runner.solcRemapsFlagL, r])
        ++ [Runner.vFlagL] := by
  unfold Runner.buildCmd
  rw [buildCmd_foldl]
  simp [List.append_assoc]

/-- C1: when the child process completes within the timeout, the Runner
exits with the child's exit code after spawning it, nothing is printed to
the error stream, exit code 0 reports success, and any nonzero code `c`
prints the warning message carrying `c`. -/
theorem c1_exit_code_propagation (env : Runner.Env) (code : Int)
    (hr : env.remappingsExists = true) (hn : env.nodeModulesExists = true)
    (hc : env.child = Runner.ChildResult.completed code) :
    (Runner.runMain env).exitCode = code
      ∧ (Runner.runMain env).spawned = true
      ∧ (∀ e ∈ (Runner.runMain env).events, e.isError = false)
      ∧ (code = 0 → Runner.Event.successMsg ∈ (Runner.runMain env).events)
      ∧ (code ≠ 0 →
          Runner.Event.warnMsg code ∈ (Runner.runMain env).events) := by
  by_cases hc0 : code = 0 <;>
    by_cases hd : Runner.mcoreDirs env.rootEntries = [] <;>
      simp [Runner.runMain, hr, hn, hc, Runner.resultsEvents, hc0, hd,
        Runner.Event.isError]

/-- C2: when the child process exceeds the timeout, the Runner prints the
timeout warning and exits with the sentinel code 124, regardless of the
exit code the child would eventually have returned, and nothing is printed
to the error stream. -/
theorem c2_timeout_sentinel (env : Runner.Env) (w : Int)
    (hr : env.remappingsExists = true) (hn : env.nodeModulesExists = true)
    (hc : env.child = Runner.ChildResult.timedOut w) :
    (Runner.runMain env).exitCode = 124
      ∧ Runner.Event.timeoutWarn env.timeoutSecs ∈ (Runner.runMain env).events
      ∧ (∀ e ∈ (Runner.runMain env).events, e.isError = false) := by
  by_cases hd : Runner.mcoreDirs env.rootEntries = [] <;>
    simp [Runner.runMain, hr, hn, hc, Runner.partialEvents, hd,
      Runner.Event.isError]

/-- C6: after the child completes (any exit code) or times out, the Runner
lists the root entries whose name starts with the fixed prefix `mcore_`
(as names relative to the project root): under the label `results` on the
completed paths and `partial results` on the timeout path. -/
theorem c6_results_listing (env : Runner.Env)
    (hr : env.remappingsExists = true) (hn : env.nodeModulesExists = true) :
    (∀ code, env.child = Runner.ChildResult.completed code →
      env.rootEntries.filter (fun nm => isPfx Runner.mcoreL nm) ≠ [] →
      Runner.Event.resultsIn
          (env.rootEntries.filter (fun nm => isPfx Runner.mcoreL nm))
        ∈ (Runner.runMain env).events)
    ∧ (∀ w, env.child = Runner.ChildResult.timedOut w →
      env.rootEntries.filter (fun nm => isPfx Runner.mcoreL nm) ≠ [] →
      Runner.Event.partialResultsIn
          (env.rootEntries.filter (fun nm => isPfx Runner.mcoreL nm))
        ∈ (Runner.runMain env).events) := by
  constructor
  · intro code hc hd
    by_cases hc0 : code = 0 <;>
      simp [Runner.runMain, hr, hn, hc, Runner.resultsEvents,
        Runner.mcoreDirs, hc0, hd]
  · intro w hc hd
    simp [Runner.runMain, hr, hn, hc, Runner.partialEvents,
      Runner.mcoreDirs, hd]

/-- C7: a missing remappings file makes the Runner exit 1 with the
corresponding error message and without spawning; with the remappings file
present, a missing `node_modules` directory makes it exit 1 with the
distinct error message, again without spawning. -/
theorem c7_config_errors (env : Runner.Env) :
    (env.remappingsExists = false →
      Runner.runMain env
        = ⟨1, [Runner.Event.errRemappingsMissing], false⟩)
    ∧ (env.remappingsExists = true → env.nodeModulesExists = false →
      Runner.runMain env
        = ⟨1, [Runner.Event.errNodeModulesMissing], false⟩) := by
  constructor
  · intro h
    simp [Runner.runMain, h]
  · intro h1 h2
    simp [Runner.runMain, h1, h2]

end Claims

namespace Script

theorem bool_eq_false {b : Bool} (h : ¬b = true) : b = false := by
  cases b with
  | false => rfl
  | true => exact absurd rfl h

theorem hasSub_of_infix (a b x : List Char) :
    hasSub x (a ++ (x ++ b)) = true :=
  hasSub_append_right a (hasSub_of_isPfx (isPfx_append_self x b))

theorem mem_insertAt (x : List Char) :
    ∀ (n : Nat) (ls : List (List Char)), x ∈ insertAt n x ls := by
  intro n
  induction n with
  | zero => intro ls; exact List.mem_cons_self x ls
  | succ m ih =>
    intro ls
    cases ls with
    | nil => exact List.mem_singleton.2 rfl
    | cons l ls => exact List.mem_cons_of_mem l (ih ls)

theorem joinNl_infix (x : List Char) :
    ∀ ls : List (List Char), x ∈ ls →
      ∃ a b, joinNl ls = a ++ (x ++ b) := by
  intro ls
  induction ls with
  | nil => intro h; exact absurd h (List.not_mem_nil x)
  | cons l ls ih =>
    intro h
    rcases List.mem_cons.1 h with heq | hmem
    · subst heq
      cases ls with
      | nil => exact ⟨[], [], by simp [joinNl]⟩
      | cons m ms => exact ⟨[], '\n' :: joinNl (m :: ms), by simp [joinNl]⟩
    · obtain ⟨a, b, hab⟩ := ih hmem
      cases ls with
      | nil => exact absurd hmem (List.not_mem_nil x)
      | cons m ms =>
        refine ⟨l ++ '\n' :: a, b, ?_⟩
        show l ++ '\n' :: joinNl (m :: ms) = _
        rw [hab]
        simp

end Script

namespace Patch

open Script

theorem dep_ne_nil : depL ≠ [] := by decide

theorem dep_le_upd : depL.length ≤ updL.length := by decide

theorem dep_upd_a3 : hasSub depL updL = false := by decide

theorem dep_upd_a4 :
    ∀ i, 1 ≤ i → i < updL.length → isPfx (updL.drop i) depL = false := by
  decide

theorem dep_upd_a5 :
    ∀ j, 1 ≤ j → j < depL.length → isPfx (depL.drop j) updL = false := by
  decide

theorem presI_b2 : hasSub depL impAbcL = false := by decide

theorem presI_b3 : hasSub impAbcL depL = false := by decide

theorem presI_b4 :
    ∀ t, 1 ≤ t → t < depL.length → isPfx (depL.drop t) impAbcL = false := by
  decide

theorem presI_b5 : ∀ k, 1 ≤ k → k ≤ impAbcL.length → k ≤ depL.length →
    impAbcL.drop (impAbcL.length - k) = depL.take k →
    (k ≤ updL.length ∧ updL.take k = depL.take k) := by decide

theorem impcL_ne_nil : impcL ≠ [] := by decide

theorem presC_b2 : hasSub depL impcL = false := by decide

theorem presC_b3 : hasSub impcL depL = false := by decide

theorem presC_b4 :
    ∀ t, 1 ≤ t → t < depL.length → isPfx (depL.drop t) impcL = false := by
  decide

theorem presC_b5 : ∀ k, 1 ≤ k → k ≤ impcL.length → k ≤ depL.length →
    impcL.drop (impcL.length - k) = depL.take k →
    (k ≤ updL.length ∧ updL.take k = depL.take k) := by decide

theorem ncN_g2 : hasSub impcNL updL = false := by decide

theorem ncN_g4 :
    ∀ i, i < updL.length → isPfx (updL.drop i) impcNL = false := by decide

theorem ncN_e2 :
    ∀ j, j < impcNL.length → isPfx (impcNL.drop j) updL = false := by decide

theorem ncN_e3 :
    ∀ j, j < impcNL.length → isPfx updL (impcNL.drop j) = false := by decide

theorem impc_pfx_impcN : isPfx impcL impcNL = true := by decide

theorem blk_has_impAbc : hasSub impAbcL blkL = true := by decide

/-- The heuristic fallback always inserts the literal line
`import collections.abc`, so its output contains that substring. -/
theorem insertHeuristic_has_impAbc (c : List Char) :
    hasSub impAbcL (insertHeuristic c) = true := by
  unfold insertHeuristic
  obtain ⟨a, b, hab⟩ := joinNl_infix impAbcL _
    (mem_insertAt impAbcL ((findInsertPos (splitNl c)).getD 0) (splitNl c))
  rw [hab]
  exact hasSub_of_infix a b impAbcL

end Patch

namespace Claims

open Script Patch

/-- C9: content containing both `collections.abc` and
`from collections.abc import` is reported as already patched: the run
returns success, performs no write and leaves the content unchanged, so
any occurrence of the deprecated `collections.Callable` remains in place. -/
theorem c9_already_patched_short_circuit (c : List Char)
    (h1 : hasSub abcL c = true) (h2 : hasSub fromAbcL c = true) :
    patchRun c = ⟨c, false, true⟩
      ∧ patchContent c = c
      ∧ (hasSub depL c = true →
          hasSub depL (patchRun c).newContent = true) := by
  have hap : alreadyPatched c = true := by
    rw [alreadyPatched, h1, h2]
    rfl
  have hrun : patchRun c = ⟨c, false, true⟩ := by
    simp [patchRun, hap]
  refine ⟨hrun, by simp [patchContent, hap], fun hd => ?_⟩
  rw [hrun]
  exact hd

/-- The file content used as concrete witness input for the
already-patched short circuit: it passes the already-patched check while
still containing the deprecated reference. -/
def alreadyPatchedSample : List Char :=
  "from collections.abc import x\ny = collections.Callable\n".toList

theorem c9_already_patched_short_circuit_witness :
    patchRun alreadyPatchedSample = ⟨alreadyPatchedSample, false, true⟩
      ∧ hasSub depL (patchRun alreadyPatchedSample).newContent = true :=
  ⟨(c9_already_patched_short_circuit alreadyPatchedSample
      (by decide) (by decide)).1,
    (c9_already_patched_short_circuit alreadyPatchedSample
      (by decide) (by decide)).2.2 (by decide)⟩

/-- C8: on content not detected as already patched, the transformation is
the global replacement of the deprecated reference `collections.Callable`
by `collections.abc.Callable` (applied after the import step), and no
occurrence of the deprecated reference remains in the output text. -/
theorem c8_deprecated_fully_replaced (c : List Char)
    (h : alreadyPatched c = false) :
    patchContent c = replaceL depL updL (importStep c)
      ∧ hasSub depL (patchContent c) = false := by
  have h1 : patchContent c = replaceL depL updL (importStep c) := by
    simp [patchContent, h]
  refine ⟨h1, ?_⟩
  rw [h1]
  exact replace_no_reintro dep_ne_nil dep_le_upd dep_upd_a3 dep_upd_a4
    dep_upd_a5 _

/-- A concrete unpatched file content used as witness input. -/
def unpatchedSample : List Char :=
  "import collections\nf = collections.Callable\ng = collections.Callable\n".toList

theorem c8_deprecated_fully_replaced_witness :
    hasSub depL (patchContent unpatchedSample) = false :=
  (c8_deprecated_fully_replaced unpatchedSample (by decide)).2

/-- C10: on content without `import collections.abc` and with `n ≥ 1`
occurrences of the line `import collections\n`, the import step replaces
every occurrence by the occurrence followed by the line
`import collections.abc` (the block `blkL` decomposes accordingly), so the
output contains exactly `n` occurrences of `import collections.abc` — one
inserted after every occurrence, not only after the first. -/
theorem c10_insert_after_every_occurrence (c : List Char) (n : Nat)
    (hI : hasSub impAbcL c = false)
    (hn : countOcc impcNL c = n) (h1 : 1 ≤ n) :
    importStep c = replaceL impcNL blkL c
      ∧ blkL = impcNL ++ impAbcL ++ ['\n']
      ∧ countOcc impAbcL (importStep c) = n := by
  have hsubN : hasSub impcNL c = true :=
    hasSub_of_countOcc_pos (by rw [hn]; exact h1)
  have hsubc : hasSub impcL c = true :=
    hasSub_of_isPfx_sub impc_pfx_impcN hsubN
  have hstep : importStep c = replaceL impcNL blkL c := by
    simp [importStep, hI, hsubc]
  refine ⟨hstep, blk_decomp, ?_⟩
  rw [hstep, count_insert_aux c.length c (le_refl _) hI, hn]

/-- A concrete content with two `import collections\n` lines, used as
witness input for the duplication of the inserted import line. -/
def doubleImportSample : List Char :=
  "import collections\nimport collections\nx = 1\n".toList

theorem c10_insert_after_every_occurrence_witness :
    countOcc impAbcL (importStep doubleImportSample) = 2 :=
  (c10_insert_after_every_occurrence doubleImportSample 2
    (by decide) (by decide) (by decide)).2.2

end Claims

namespace Patch

open Script

theorem patchContent_of_already {x : List Char}
    (h : alreadyPatched x = true) : patchContent x = x := by
  simp [patchContent, h]

theorem patchContent_of_not_already {x : List Char}
    (h : alreadyPatched x = false) :
    patchContent x = replaceL depL updL (importStep x) := by
  simp [patchContent, h]

end Patch

namespace Claims

open Script Patch

/-- C5: the Patcher's text transformation is idempotent: running it on
already-patched content reports success with no write, a second run on the
output of a first run leaves the content identical, and in every run the
write happens exactly when the transformed content differs from the
original (the run always reports success and its resulting content is the
transformation's output). -/
theorem c5_patcher_idempotent (c : List Char) :
    patchContent (patchContent c) = patchContent c
      ∧ (alreadyPatched c = true → patchRun c = ⟨c, false, true⟩)
      ∧ ((patchRun c).wrote = true ↔ patchContent c ≠ c)
      ∧ (patchRun c).ok = true
      ∧ (patchRun c).newContent = patchContent c := by
  by_cases hap : alreadyPatched c = true
  · have h0 : patchContent c = c := patchContent_of_already hap
    have hrun : patchRun c = ⟨c, false, true⟩ := by
      simp [patchRun, hap]
    refine ⟨by rw [h0]; exact h0, fun _ => hrun, ?_, ?_, ?_⟩
    · rw [hrun, h0]
      simp
    · rw [hrun]
    · rw [hrun, h0]
  · have hapf : alreadyPatched c = false := bool_eq_false hap
    have hO : patchContent c = replaceL depL updL (importStep c) :=
      patchContent_of_not_already hapf
    have hNoDep : hasSub depL (patchContent c) = false := by
      rw [hO]
      exact replace_no_reintro dep_ne_nil dep_le_upd dep_upd_a3 dep_upd_a4
        dep_upd_a5 _
    have hstep2 : importStep (patchContent c) = patchContent c := by
      by_cases hIc : hasSub impAbcL c = true
      · -- the import was already present; it survives the replacement
        have hstep : importStep c = c := by simp [importStep, hIc]
        have hIO : hasSub impAbcL (patchContent c) = true := by
          rw [hO, hstep]
          exact pres_hasSub dep_ne_nil impAbcL_ne_nil presI_b2 presI_b3
            presI_b4 presI_b5 c.length c (le_refl _) hIc
        simp [importStep, hIO]
      · have hIcf : hasSub impAbcL c = false := bool_eq_false hIc
        by_cases hCc : hasSub impcL c = true
        · by_cases hNc : hasSub impcNL c = true
          · -- the duplication step inserted the import; it survives
            have hstep : importStep c = replaceL impcNL blkL c := by
              simp [importStep, hIcf, hCc]
            have hIc1 : hasSub impAbcL (replaceL impcNL blkL c) = true :=
              intro_hasSub impcNL_ne_nil blk_has_impAbc c.length c
                (le_refl _) hNc
            have hIO : hasSub impAbcL (patchContent c) = true := by
              rw [hO, hstep]
              exact pres_hasSub dep_ne_nil impAbcL_ne_nil presI_b2 presI_b3
                presI_b4 presI_b5 (replaceL impcNL blkL c).length _
                (le_refl _) hIc1
            simp [importStep, hIO]
          · -- `import collections` present but never followed by a newline:
            -- the first run left the imports untouched, and so does the second
            have hNcf : hasSub impcNL c = false := bool_eq_false hNc
            have hstep : importStep c = c := by
              have h1 : importStep c = replaceL impcNL blkL c := by
                simp [importStep, hIcf, hCc]
              rw [h1]
              exact replace_id hNcf
            have hCO : hasSub impcL (patchContent c) = true := by
              rw [hO, hstep]
              exact pres_hasSub dep_ne_nil impcL_ne_nil presC_b2 presC_b3
                presC_b4 presC_b5 c.length c (le_refl _) hCc
            have hNO : hasSub impcNL (patchContent c) = false := by
              rw [hO, hstep]
              cases hv : hasSub impcNL (replaceL depL updL c) with
              | false => rfl
              | true =>
                exfalso
                have hh := nc_hasSub dep_ne_nil impcNL_ne_nil ncN_g2 ncN_g4
                  ncN_e2 ncN_e3 c.length c (le_refl _) hv
                rw [hNcf] at hh
                exact Bool.false_ne_true hh
            by_cases hIO : hasSub impAbcL (patchContent c) = true
            · simp [importStep, hIO]
            · have hIOf := bool_eq_false hIO
              have h2 : importStep (patchContent c)
                  = replaceL impcNL blkL (patchContent c) := by
                simp [importStep, hIOf, hCO]
              rw [h2]
              exact replace_id hNO
        · -- no related import at all: the heuristic inserted the line
          have hCcf : hasSub impcL c = false := bool_eq_false hCc
          have hstep : importStep c = insertHeuristic c := by
            simp [importStep, hIcf, hCcf]
          have hIO : hasSub impAbcL (patchContent c) = true := by
            rw [hO, hstep]
            exact pres_hasSub dep_ne_nil impAbcL_ne_nil presI_b2 presI_b3
              presI_b4 presI_b5 (insertHeuristic c).length _ (le_refl _)
              (insertHeuristic_has_impAbc c)
          simp [importStep, hIO]
    have hidem : patchContent (patchContent c) = patchContent c := by
      by_cases hap2 : alreadyPatched (patchContent c) = true
      · exact patchContent_of_already hap2
      · have hap2f := bool_eq_false hap2
        rw [patchContent_of_not_already hap2f, hstep2]
        exact replace_id hNoDep
    by_cases hch : replaceL depL updL (importStep c) = c
    · have hpc : patchContent c = c := by rw [hO, hch]
      have hrun : patchRun c = ⟨c, false, true⟩ := by
        simp [patchRun, hapf, hch]
      refine ⟨hidem, fun hcontra => absurd hcontra hap, ?_, ?_, ?_⟩
      · rw [hrun, hpc]
        simp
      · rw [hrun]
      · rw [hrun, hpc]
    · have hrun : patchRun c
          = ⟨replaceL depL updL (importStep c), true, true⟩ := by
        simp [patchRun, hapf, hch]
      refine ⟨hidem, fun hcontra => absurd hcontra hap, ?_, ?_, ?_⟩
      · rw [hrun, hO]
        simp [hch]
      · rw [hrun]
      · rw [hrun, hO]

/-- Witness for the idempotence claim at a concrete already-patched input
and at a concrete input that requires a write. -/
theorem c5_patcher_idempotent_witness :
    patchRun alreadyPatchedSample
        = ⟨alreadyPatchedSample, false, true⟩
      ∧ patchContent (patchContent unpatchedSample)
        = patchContent unpatchedSample
      ∧ ((patchRun unpatchedSample).wrote = true
          ↔ patchContent unpatchedSample ≠ unpatchedSample) :=
  ⟨(c5_patcher_idempotent alreadyPatchedSample).2.1 (by decide),
    (c5_patcher_idempotent unpatchedSample).1,
    (c5_patcher_idempotent unpatchedSample).2.2.1⟩

end Claims

namespace Claims

open Script

/-- A concrete environment whose child process completes with exit code 3. -/
def envCompleted : Runner.Env :=
  { contractPath := "contracts/FutarchyTest.sol".toList,
    contractName := "FutarchyTest".toList,
    timeoutSecs := 300,
    remappingsExists := true,
    nodeModulesExists := true,
    remapLines := ["@openzeppelin/=node_modules/@openzeppelin/".toList,
      "# a comment".toList, "   ".toList],
    child := Runner.ChildResult.completed 3,
    rootEntries := ["mcore_a1b2".toList, "contracts".toList] }

theorem c1_exit_code_propagation_witness :
    (Runner.runMain envCompleted).exitCode = 3
      ∧ Runner.Event.warnMsg 3 ∈ (Runner.runMain envCompleted).events :=
  ⟨(c1_exit_code_propagation envCompleted 3 rfl rfl rfl).1,
    (c1_exit_code_propagation envCompleted 3 rfl rfl rfl).2.2.2.2
      (by decide)⟩

/-- The same environment with a child that would eventually exit 7 but
exceeds the timeout. -/
def envTimedOut : Runner.Env :=
  { envCompleted with child := Runner.ChildResult.timedOut 7 }

theorem c2_timeout_sentinel_witness :
    (Runner.runMain envTimedOut).exitCode = 124
      ∧ Runner.Event.timeoutWarn 300 ∈ (Runner.runMain envTimedOut).events :=
  ⟨(c2_timeout_sentinel envTimedOut 7 rfl rfl rfl).1,
    (c2_timeout_sentinel envTimedOut 7 rfl rfl rfl).2.1⟩

theorem c6_results_listing_witness :
    Runner.Event.resultsIn
        (envCompleted.rootEntries.filter (fun nm => isPfx Runner.mcoreL nm))
      ∈ (Runner.runMain envCompleted).events :=
  (c6_results_listing envCompleted rfl rfl).1 3 rfl (by decide)

/-- The same environment with the remappings file absent. -/
def envNoRemappings : Runner.Env :=
  { envCompleted with remappingsExists := false }

theorem c7_config_errors_witness :
    Runner.runMain envNoRemappings
      = ⟨1, [Runner.Event.errRemappingsMissing], false⟩ :=
  (c7_config_errors envNoRemappings).1 rfl

end Claims
